import Mathlib

/-!
Verification of the atlas-packer core against its design specification.

The development shallowly embeds the Rust sources:
* `src/disjoint_set.rs` — union-find used by the clusterer
* `src/texture/utils.rs` — UV-to-pixel conversion and bounding boxes
* `src/texture/mod.rs`   — `DownsampleFactor`, `CroppedTexture` and its
  predicates, the rasterizing `crop`
* `src/pack.rs`          — `create_cluster` and the packing loop

Machine integers (`u32`) are embedded as `ℕ` with an explicit `% 2^32`
where the source arithmetic can wrap; `f32`/`f64` values are embedded as
`ℚ` (exact at every concrete input used below); fallible construction
(`panic!`) is embedded as `Option`.
-/

/-- `u32::MAX`. -/
def u32Max : ℕ := 4294967295

/-- Wrapping `u32` addition (release-mode semantics of `x + y` on `u32`). -/
def u32add (a b : ℕ) : ℕ := (a + b) % 4294967296

/-- Rust `as u32` cast from a float, embedded on `ℚ`: truncation toward
zero with saturation (negative values collapse to `0`, large values to
`u32::MAX`). -/
def ratToU32 (q : ℚ) : ℕ := if q ≤ 0 then 0 else min ⌊q⌋.toNat u32Max

/-- Rust `f64::clamp(lo, hi)` on `ℚ` (for `lo ≤ hi`). -/
def rclamp (q lo hi : ℚ) : ℚ := min (max q lo) hi

/-- `utils::uv_to_pixel_coords`: each UV point is clamped to `[0,1]`,
scaled by the image size with a vertical flip, capped at `dim - 1` and
cast to `u32`. -/
def uv_to_pixel_coords (uv_coords : List (ℚ × ℚ)) (width height : ℕ) : List (ℕ × ℕ) :=
  uv_coords.map fun uv =>
    (ratToU32 (min (rclamp uv.1 0 1 * (width : ℚ)) ((width : ℚ) - 1)),
     ratToU32 (min ((1 - rclamp uv.2 0 1) * (height : ℚ)) ((height : ℚ) - 1)))

/-- `utils::calc_bbox`: fold starting from the sentinel
`(u32::MAX, u32::MAX, 0, 0)`, taking componentwise min of the lows and
max of the highs. -/
def calc_bbox (pixel_coords : List (ℕ × ℕ)) : ℕ × ℕ × ℕ × ℕ :=
  pixel_coords.foldl
    (fun acc xy => (min acc.1 xy.1, min acc.2.1 xy.2, max acc.2.2.1 xy.1, max acc.2.2.2 xy.2))
    (u32Max, u32Max, 0, 0)

/-- `texture::DownsampleFactor` payload. -/
structure DownsampleFactor where
  val : ℚ
deriving DecidableEq, Repr

/-- `DownsampleFactor::new`: accepts exactly the factors in the closed
range `0.0..=1.0`; the `panic!` branch is embedded as `none`. -/
def DownsampleFactor.new (factor : ℚ) : Option DownsampleFactor :=
  if 0 ≤ factor ∧ factor ≤ 1 then some ⟨factor⟩ else none

/-- `DownsampleFactor::value`. -/
def DownsampleFactor.value (d : DownsampleFactor) : ℚ := d.val

/-- `texture::CroppedTexture` (the `PathBuf` is embedded as a `String`). -/
structure CroppedTexture where
  image_path : String
  origin : ℕ × ℕ
  width : ℕ
  height : ℕ
  downsample_factor : DownsampleFactor
  cropped_uv_coords : List (ℚ × ℚ)
deriving DecidableEq

/-- Placeholder texture used only as the default for total list indexing. -/
def dummyTexture : CroppedTexture := ⟨"", (0, 0), 0, 0, ⟨1⟩, []⟩

/-- `CroppedTexture::overlaps`: false on distinct source paths, and
otherwise the negated separating-axis test
`!(x1 + w1 < x2 || x2 + w2 < x1 || y1 + h1 < y2 || y2 + h2 < y1)`
with wrapping `u32` sums. -/
def CroppedTexture.overlaps (self other : CroppedTexture) : Bool :=
  if self.image_path ≠ other.image_path then false
  else
    decide (¬ (u32add self.origin.1 self.width < other.origin.1
        ∨ u32add other.origin.1 other.width < self.origin.1
        ∨ u32add self.origin.2 self.height < other.origin.2
        ∨ u32add other.origin.2 other.height < self.origin.2))

/-- Scaled dimension computed by the downsampling step of
`CroppedTexture::crop`: `(clipped.width() as f32 * factor) as u32`
(and likewise for the height). -/
def crop_scaled_dim (dim : ℕ) (factor : ℚ) : ℕ := ratToU32 ((dim : ℚ) * factor)

/-! ### Evaluation helpers for the `ℚ`-valued embeddings -/

theorem ratToU32_nonpos {q : ℚ} (h : q ≤ 0) : ratToU32 q = 0 := if_pos h

theorem ratToU32_natCast (n : ℕ) (hn : n ≤ u32Max) : ratToU32 (n : ℚ) = n := by
  rcases Nat.eq_zero_or_pos n with h | h
  · subst h
    simp [ratToU32]
  · have h0 : ¬ ((n : ℚ) ≤ 0) := not_le.mpr (by exact_mod_cast h)
    rw [ratToU32, if_neg h0, Int.floor_natCast, Int.toNat_natCast, min_eq_left hn]

/-- On inputs that cannot wrap, the `u32` sum is the mathematical sum. -/
theorem u32add_eq {a b : ℕ} (h : a + b ≤ u32Max) : u32add a b = a + b :=
  Nat.mod_eq_of_lt (lt_of_le_of_lt h (by rw [u32Max]; omega))

/-- Symmetry of `overlaps`, proved once and shared by the claims that
depend on the clusterer examining each unordered pair only once. -/
theorem overlaps_comm (a b : CroppedTexture) : a.overlaps b = b.overlaps a := by
  unfold CroppedTexture.overlaps
  by_cases hp : a.image_path = b.image_path
  · rw [if_neg (not_not_intro hp), if_neg (not_not_intro hp.symm)]
    exact decide_eq_decide.mpr (by tauto)
  · rw [if_pos hp, if_pos (fun h => hp h.symm)]

/-! ### Claim theorems for the texture model and geometry -/

/-- Claim C2: `overlaps(a,b)` is true iff `a` and `b` name the same
source image and the closed pixel boxes
`[origin.x, origin.x + width] × [origin.y, origin.y + height]` of the
two textures intersect on both axes (boxes that merely touch at an edge
count as intersecting); in particular it is false whenever the source
paths differ.  Stated for textures whose box corners do not overflow
`u32`, which holds for every texture the constructor can produce. -/
theorem c2_overlaps_iff (a b : CroppedTexture)
    (hxa : a.origin.1 + a.width ≤ u32Max) (hxb : b.origin.1 + b.width ≤ u32Max)
    (hya : a.origin.2 + a.height ≤ u32Max) (hyb : b.origin.2 + b.height ≤ u32Max) :
    a.overlaps b = true ↔
      a.image_path = b.image_path
      ∧ (∃ px : ℕ, a.origin.1 ≤ px ∧ px ≤ a.origin.1 + a.width
          ∧ b.origin.1 ≤ px ∧ px ≤ b.origin.1 + b.width)
      ∧ (∃ py : ℕ, a.origin.2 ≤ py ∧ py ≤ a.origin.2 + a.height
          ∧ b.origin.2 ≤ py ∧ py ≤ b.origin.2 + b.height) := by
  unfold CroppedTexture.overlaps
  by_cases hp : a.image_path = b.image_path
  · rw [if_neg (not_not_intro hp)]
    rw [u32add_eq hxa, u32add_eq hxb, u32add_eq hya, u32add_eq hyb]
    simp only [decide_eq_true_eq]
    constructor
    · intro h
      refine ⟨hp, ⟨max a.origin.1 b.origin.1, ?_, ?_, ?_, ?_⟩,
        ⟨max a.origin.2 b.origin.2, ?_, ?_, ?_, ?_⟩⟩ <;> omega
    · rintro ⟨-, ⟨px, h1, h2, h3, h4⟩, ⟨py, g1, g2, g3, g4⟩⟩
      omega
  · rw [if_pos hp]
    simp [hp]

/-- A sample pair of textures on the same image whose boxes touch at the
edge `x = 10`. -/
def texA : CroppedTexture := ⟨"img.png", (0, 0), 10, 10, ⟨1⟩, []⟩

/-- Companion to `texA`; its box starts exactly where `texA`'s box ends. -/
def texB : CroppedTexture := ⟨"img.png", (10, 5), 4, 4, ⟨1⟩, []⟩

theorem c2_overlaps_iff_witness : texA.overlaps texB = true :=
  (c2_overlaps_iff texA texB (by decide) (by decide) (by decide) (by decide)).mpr
    ⟨rfl, ⟨10, by decide, by decide, by decide, by decide⟩,
      ⟨5, by decide, by decide, by decide, by decide⟩⟩

/-- Claim C9: the overlap predicate is symmetric, so the clusterer's
single pass over unordered pairs does not depend on argument order. -/
theorem c9_overlaps_symm (a b : CroppedTexture) : a.overlaps b = b.overlaps a :=
  overlaps_comm a b

/-- Claim C6: `DownsampleFactor::new(f)` fails (panics) exactly when `f`
lies outside `[0, 1]`, and for every in-range `f` it succeeds with
`value()` returning `f` unchanged — never clamped. -/
theorem c6_downsample_factor_new (f : ℚ) :
    (DownsampleFactor.new f = none ↔ ¬ (0 ≤ f ∧ f ≤ 1))
    ∧ ((0 ≤ f ∧ f ≤ 1) → ∃ d, DownsampleFactor.new f = some d ∧ d.value = f) := by
  unfold DownsampleFactor.new
  by_cases h : 0 ≤ f ∧ f ≤ 1
  · rw [if_pos h]
    exact ⟨by simp [h], fun _ => ⟨⟨f⟩, rfl, rfl⟩⟩
  · rw [if_neg h]
    exact ⟨by simp [h], fun hh => absurd hh h⟩

theorem c6_downsample_factor_new_witness :
    ∃ d, DownsampleFactor.new 0 = some d ∧ d.value = 0 :=
  (c6_downsample_factor_new 0).2 ⟨le_refl 0, zero_le_one⟩

/-- Claim C3 fails on the code: `DownsampleFactor::new` accepts the
in-range factor `0.0`, and `crop`'s downsampling step
`(width as f32 * factor) as u32` then produces `0` for both scaled
dimensions with no guard, so the returned image is `0 × 0`, not at
least `1 × 1`. -/
theorem c3_crop_zero_size_counterexample :
    DownsampleFactor.new 0 = some ⟨0⟩
    ∧ crop_scaled_dim 100 0 = 0 ∧ crop_scaled_dim 80 0 = 0 := by
  refine ⟨?_, ?_, ?_⟩
  · rw [DownsampleFactor.new, if_pos ⟨le_refl 0, zero_le_one⟩]
  · rw [crop_scaled_dim, mul_zero]
    exact ratToU32_nonpos (le_refl 0)
  · rw [crop_scaled_dim, mul_zero]
    exact ratToU32_nonpos (le_refl 0)

/-- Claim C8: converting the unit-square UV polygon over a 100×100 image
to pixel coordinates and taking the bounding box yields `(0, 0, 99, 99)`. -/
theorem c8_uv_bbox_roundtrip :
    calc_bbox (uv_to_pixel_coords [(0, 0), (1, 0), (1, 1), (0, 1)] 100 100)
      = (0, 0, 99, 99) := by
  have hc0 : rclamp 0 0 1 = 0 := by rw [rclamp]; norm_num
  have hc1 : rclamp 1 0 1 = 1 := by rw [rclamp]; norm_num
  have hx0 : ratToU32 (min (rclamp 0 0 1 * ((100 : ℕ) : ℚ)) (((100 : ℕ) : ℚ) - 1)) = 0 := by
    rw [hc0, zero_mul]
    exact ratToU32_nonpos (by norm_num)
  have hx1 : ratToU32 (min (rclamp 1 0 1 * ((100 : ℕ) : ℚ)) (((100 : ℕ) : ℚ) - 1)) = 99 := by
    rw [hc1, one_mul]
    have : min ((((100 : ℕ)) : ℚ)) ((((100 : ℕ)) : ℚ) - 1) = ((99 : ℕ) : ℚ) := by
      norm_num
    rw [this, ratToU32_natCast 99 (by rw [u32Max]; omega)]
  have hy0 : ratToU32 (min ((1 - rclamp 0 0 1) * ((100 : ℕ) : ℚ)) (((100 : ℕ) : ℚ) - 1)) = 99 := by
    rw [hc0, sub_zero, one_mul]
    have : min ((((100 : ℕ)) : ℚ)) ((((100 : ℕ)) : ℚ) - 1) = ((99 : ℕ) : ℚ) := by
      norm_num
    rw [this, ratToU32_natCast 99 (by rw [u32Max]; omega)]
  have hy1 : ratToU32 (min ((1 - rclamp 1 0 1) * ((100 : ℕ) : ℚ)) (((100 : ℕ) : ℚ) - 1)) = 0 := by
    rw [hc1, sub_self, zero_mul]
    exact ratToU32_nonpos (by norm_num)
  have e : uv_to_pixel_coords [(0, 0), (1, 0), (1, 1), (0, 1)] 100 100
      = [(0, 99), (99, 99), (99, 0), (0, 0)] := by
    rw [uv_to_pixel_coords]
    simp only [List.map]
    rw [hx0, hx1, hy0, hy1]
  rw [e]
  decide

/-- Claim C10: `calc_bbox` on the empty list returns the fold sentinel
`(u32::MAX, u32::MAX, 0, 0)` rather than failing, and this degenerate
box has its maxima strictly below its minima, so the `max - min` width
computation in `CroppedTexture::new` would underflow on it — non-empty
input is a genuine precondition of the constructor. -/
theorem c10_calc_bbox_empty :
    calc_bbox [] = (u32Max, u32Max, 0, 0)
    ∧ uv_to_pixel_coords [] 100 100 = []
    ∧ (calc_bbox []).2.2.1 < (calc_bbox []).1
    ∧ (calc_bbox []).2.2.2 < (calc_bbox []).2.1 := by
  refine ⟨rfl, rfl, ?_, ?_⟩ <;> decide

/-! ### The rasterizer: point-in-polygon and the pixel assembly of `crop` -/

/-- `is_point_inside_polygon`: ray-casting parity test.  The fold state
is `(is_inside, previous_vertex_index)`, starting from
`(false, polygon.len() - 1)`.  The `f64` division is embedded on `ℚ`
(total, with division by zero yielding `0`); the branch that consumes it
is guarded by `is_y_between_vertices`, which forces distinct vertex
`y`-coordinates. -/
def is_point_inside_polygon (test_point : ℚ × ℚ) (polygon : List (ℚ × ℚ)) : Bool :=
  ((List.range polygon.length).foldl
    (fun st current_vertex_index =>
      let cur := polygon.getD current_vertex_index (0, 0)
      let prev := polygon.getD st.2 (0, 0)
      let is_y_between_vertices :=
        (decide (cur.2 > test_point.2)) != (decide (prev.2 > test_point.2))
      let does_ray_intersect :=
        decide (test_point.1
          < (prev.1 - cur.1) * (test_point.2 - cur.2) / (prev.2 - cur.2) + cur.1)
      ((if is_y_between_vertices && does_ray_intersect then !st.1 else st.1),
        current_vertex_index))
    (false, polygon.length - 1)).1

/-- Row-major enumeration of a `width × height` pixel grid, as the
`image` crate's `enumerate_pixels` yields it. -/
def enumerate_pixels {α : Type} (width height : ℕ) (img : ℕ → ℕ → α) : List (ℕ × ℕ × α) :=
  (List.range height).flatMap fun py => (List.range width).map fun px => (px, py, img px py)

/-- Per-pixel body of the parallel loop in `CroppedTexture::crop` with
`samples = 1` (`sx = sy = 0`): classify the adjusted pixel center
against the local UV polygon and emit the pixel; both the inside branch
and the outside branch emit it unchanged (the source's FIXME keeps
outside pixels to avoid jaggies). -/
def crop_process_pixel {α : Type} (t : CroppedTexture) (e : ℕ × ℕ × α) : ℕ × ℕ × α :=
  let x : ℚ := ((e.1 : ℚ) + ((0 : ℚ) + 0.5) / 1) / (t.width : ℚ)
  let y : ℚ := 1 - ((e.2.1 : ℚ) + ((0 : ℚ) + 0.5) / 1) / (t.height : ℚ)
  let center_x := x + 0.5 / (t.width : ℚ)
  let center_y := y - 0.5 / (t.height : ℚ)
  if is_point_inside_polygon (center_x, center_y) t.cropped_uv_coords then
    (e.1, e.2.1, e.2.2)
  else
    (e.1, e.2.1, e.2.2)

/-- `ImageBuffer::put_pixel` on a coordinate-addressed buffer. -/
def put_pixel {α : Type} (buf : ℕ × ℕ → α) (px py : ℕ) (pix : α) : ℕ × ℕ → α :=
  fun q => if q = (px, py) then pix else buf q

/-- The image `clipped` assembled by `CroppedTexture::crop` just before
the downsampling step: extract the crop rectangle of the source as a
view, run the per-pixel classification, and write every emitted pixel
back into a fresh buffer keyed by coordinate. -/
def crop_assemble {α : Type} (t : CroppedTexture) (img : ℕ → ℕ → α) (zero : α) :
    ℕ × ℕ → α :=
  let cropped : ℕ → ℕ → α := fun px py => img (t.origin.1 + px) (t.origin.2 + py)
  let pixels := enumerate_pixels t.width t.height cropped
  (pixels.map (crop_process_pixel t)).foldl
    (fun buf e => put_pixel buf e.1 e.2.1 e.2.2) (fun _ => zero)

theorem crop_process_pixel_id {α : Type} (t : CroppedTexture) (e : ℕ × ℕ × α) :
    crop_process_pixel t e = e := by
  unfold crop_process_pixel
  simp only [ite_self]

theorem foldl_put_row {α : Type} (f : ℕ → ℕ → α) (py0 : ℕ) (w : ℕ) (buf : ℕ × ℕ → α)
    (px py : ℕ) :
    (((List.range w).map fun px2 => (px2, py0, f px2 py0)).foldl
        (fun b e => put_pixel b e.1 e.2.1 e.2.2) buf) (px, py)
      = if px < w ∧ py = py0 then f px py0 else buf (px, py) := by
  induction w with
  | zero => simp
  | succ n ih =>
      rw [List.range_succ, List.map_append, List.foldl_append]
      simp only [List.map_cons, List.map_nil, List.foldl_cons, List.foldl_nil]
      rw [put_pixel]
      by_cases hc : (px, py) = (n, py0)
      · rw [if_pos hc]
        obtain ⟨h1, h2⟩ := Prod.mk.injEq .. ▸ hc
        rw [if_pos ⟨by omega, h2⟩, h1]
      · rw [if_neg hc, ih]
        have hne : ¬ (px = n ∧ py = py0) := fun ⟨h1, h2⟩ => hc (by rw [h1, h2])
        by_cases hlt : px < n ∧ py = py0
        · rw [if_pos hlt, if_pos ⟨by omega, hlt.2⟩]
        · rw [if_neg hlt, if_neg (fun ⟨h1, h2⟩ => by
            rcases Nat.lt_succ_iff_lt_or_eq.mp h1 with h | h
            · exact hlt ⟨h, h2⟩
            · exact hne ⟨h, h2⟩)]

theorem foldl_put_grid {α : Type} (f : ℕ → ℕ → α) (w h : ℕ) (buf : ℕ × ℕ → α)
    (px py : ℕ) :
    ((enumerate_pixels w h f).foldl (fun b e => put_pixel b e.1 e.2.1 e.2.2) buf) (px, py)
      = if px < w ∧ py < h then f px py else buf (px, py) := by
  induction h with
  | zero => simp [enumerate_pixels]
  | succ n ih =>
      have hsplit : enumerate_pixels w (n + 1) f
          = enumerate_pixels w n f ++ ((List.range w).map fun px2 => (px2, n, f px2 n)) := by
        rw [enumerate_pixels, List.range_succ, List.flatMap_append]
        simp only [List.flatMap_cons, List.flatMap_nil, List.append_nil]
        rfl
      rw [hsplit, List.foldl_append, foldl_put_row, ih]
      by_cases h1 : px < w
      · by_cases h2 : py = n
        · subst h2
          rw [if_pos ⟨h1, rfl⟩, if_pos ⟨h1, Nat.lt_succ_self py⟩]
        · rw [if_neg (fun hh => h2 hh.2)]
          by_cases h3 : py < n
          · rw [if_pos ⟨h1, h3⟩, if_pos ⟨h1, by omega⟩]
          · rw [if_neg (fun hh => h3 hh.2), if_neg (fun hh => by
              rcases Nat.lt_succ_iff_lt_or_eq.mp hh.2 with h | h
              · exact h3 h
              · exact h2 h)]
      · rw [if_neg (fun hh => h1 hh.1), if_neg (fun hh => h1 hh.1),
          if_neg (fun hh => h1 hh.1)]

/-- Claim C7: the image assembled by `crop` before the downsampling step
holds, at every coordinate of the crop rectangle, exactly the
corresponding source pixel: the point-in-polygon classification never
alters or discards a pixel, because both branches emit it unchanged. -/
theorem c7_crop_keeps_all_pixels {α : Type} (t : CroppedTexture) (img : ℕ → ℕ → α)
    (zero : α) (px py : ℕ) (hx : px < t.width) (hy : py < t.height) :
    crop_assemble t img zero (px, py) = img (t.origin.1 + px) (t.origin.2 + py) := by
  have hmap : ∀ (l : List (ℕ × ℕ × α)), l.map (crop_process_pixel t) = l := by
    intro l
    induction l with
    | nil => rfl
    | cons a l ih => rw [List.map_cons, crop_process_pixel_id, ih]
  show ((enumerate_pixels t.width t.height
      fun px2 py2 => img (t.origin.1 + px2) (t.origin.2 + py2)).map
        (crop_process_pixel t)).foldl
      (fun buf e => put_pixel buf e.1 e.2.1 e.2.2) (fun _ => zero) (px, py)
    = img (t.origin.1 + px) (t.origin.2 + py)
  rw [hmap, foldl_put_grid, if_pos ⟨hx, hy⟩]

/-- A sample 2×3 crop at origin (5, 7) used to exercise `crop_assemble`. -/
def texC : CroppedTexture := ⟨"img.png", (5, 7), 2, 3, ⟨1⟩, [(0, 0), (1, 0), (1, 1)]⟩

/-- Sample source image whose pixel at (x, y) is the pair (x, y). -/
def imgCoords : ℕ → ℕ → ℕ × ℕ := fun x y => (x, y)

theorem c7_crop_keeps_all_pixels_witness :
    crop_assemble texC imgCoords (0, 0) (1, 2) = imgCoords (5 + 1) (7 + 2) :=
  c7_crop_keeps_all_pixels texC imgCoords (0, 0) 1 2 (by decide) (by decide)

/-! ### The union-find structure (`disjoint_set.rs`) -/

/-- `DisjointSet`: a fixed-size parent-pointer vector. -/
structure DisjointSet where
  parent : List ℕ

/-- `DisjointSet::new(n)`: `n` singleton sets, each node its own parent. -/
def DisjointSet.new (n : ℕ) : DisjointSet := ⟨List.range n⟩

/-- One parent-pointer step, `self.parent[x]` (total via `getD`; the
claims only ever evaluate it at in-range indices). -/
def DisjointSet.parentOf (ds : DisjointSet) (x : ℕ) : ℕ := ds.parent.getD x x

/-- Fuel-bounded unfolding of the recursive `DisjointSet::root`: follow
parent pointers until a fixed point.  The fuel only makes the recursion
structural; `c5_root_terminates_in_range` shows that on every reachable
state fuel `parent.len()` reaches the fixed point the Rust recursion
computes. -/
def DisjointSet.rootFuel (ds : DisjointSet) : ℕ → ℕ → ℕ
  | 0, x => x
  | fuel + 1, x => if ds.parentOf x = x then x else ds.rootFuel fuel (ds.parentOf x)

/-- `DisjointSet::root`. -/
def DisjointSet.root (ds : DisjointSet) (x : ℕ) : ℕ := ds.rootFuel ds.parent.length x

/-- `DisjointSet::unite`: hang the root of `x` under the root of `y`. -/
def DisjointSet.unite (ds : DisjointSet) (x y : ℕ) : DisjointSet :=
  ⟨ds.parent.set (ds.root x) (ds.root y)⟩

/-- `DisjointSet::is_same`. -/
def DisjointSet.is_same (ds : DisjointSet) (x y : ℕ) : Bool := ds.root x == ds.root y

/-- Modelled from the spec: `DisjointSet::compress` is called by
`AtlasPacker::create_cluster` but absent from the `disjoint_set.rs`
under `src/` (which still carries the `TODO (optional): compress the
path` note).  Spec §4.1/§9: an optional path-compression pass after all
unions are complete repoints every node directly to its discovered
root. -/
def DisjointSet.compress (ds : DisjointSet) : DisjointSet :=
  ⟨(List.range ds.parent.length).map ds.root⟩

/-- A node is a root when it is its own parent. -/
def DisjointSet.isRoot (ds : DisjointSet) (x : ℕ) : Prop := ds.parentOf x = x

instance (ds : DisjointSet) (x : ℕ) : Decidable (ds.isRoot x) := by
  unfold DisjointSet.isRoot
  infer_instance

/-- `k`-fold parent iteration: the chain the recursive `root` walks. -/
def DisjointSet.iter (ds : DisjointSet) (k x : ℕ) : ℕ := (ds.parentOf)^[k] x

/-- Well-formedness: stored parents are in range and every chain reaches
a fixed point. -/
def DisjointSet.Wf (ds : DisjointSet) : Prop :=
  (∀ y ∈ ds.parent, y < ds.parent.length)
  ∧ ∀ x < ds.parent.length, ∃ k, ds.isRoot (ds.iter k x)

/-- The states reachable from `new n` by `unite` calls whose arguments
are below `n` — exactly the states `create_cluster` drives the structure
through. -/
inductive DisjointSet.Reachable (n : ℕ) : DisjointSet → Prop
  | base : Reachable n (DisjointSet.new n)
  | step {ds : DisjointSet} {x y : ℕ} :
      Reachable n ds → x < n → y < n → Reachable n (ds.unite x y)

theorem DisjointSet.iter_zero (ds : DisjointSet) (x : ℕ) : ds.iter 0 x = x := rfl

theorem DisjointSet.iter_succ (ds : DisjointSet) (k x : ℕ) :
    ds.iter (k + 1) x = ds.iter k (ds.parentOf x) :=
  Function.iterate_succ_apply ds.parentOf k x

theorem DisjointSet.iter_succ' (ds : DisjointSet) (k x : ℕ) :
    ds.iter (k + 1) x = ds.parentOf (ds.iter k x) :=
  Function.iterate_succ_apply' ds.parentOf k x

/-- Once a chain hits a fixed point it stays there. -/
theorem DisjointSet.iter_stable (ds : DisjointSet) {k x : ℕ}
    (h : ds.isRoot (ds.iter k x)) (j : ℕ) : ds.iter (k + j) x = ds.iter k x := by
  induction j with
  | zero => rfl
  | succ j ih =>
      rw [show k + (j + 1) = (k + j) + 1 by omega, iter_succ', ih]
      exact h

/-- `rootFuel` returns a point of the chain, and a fixed point, whenever
some chain prefix within the fuel reaches a fixed point. -/
theorem DisjointSet.rootFuel_reaches (ds : DisjointSet) :
    ∀ (fuel x : ℕ), (∃ k ≤ fuel, ds.isRoot (ds.iter k x)) →
      ∃ j ≤ fuel, ds.rootFuel fuel x = ds.iter j x ∧ ds.isRoot (ds.rootFuel fuel x) := by
  intro fuel
  induction fuel with
  | zero =>
      intro x h
      obtain ⟨k, hk, hr⟩ := h
      refine ⟨0, le_refl 0, rfl, ?_⟩
      rw [Nat.le_zero] at hk
      subst hk
      exact hr
  | succ fuel ih =>
      intro x h
      by_cases hr : ds.parentOf x = x
      · exact ⟨0, Nat.zero_le _, by rw [rootFuel, if_pos hr]; rfl,
          by rw [rootFuel, if_pos hr]; exact hr⟩
      · obtain ⟨k, hk, hkr⟩ := h
        match k, hkr with
        | 0, hkr => exact absurd hkr hr
        | k + 1, hkr =>
            rw [iter_succ] at hkr
            obtain ⟨j, hj, he, hjr⟩ := ih (ds.parentOf x) ⟨k, Nat.lt_succ_iff.mp hk, hkr⟩
            refine ⟨j + 1, Nat.succ_le_succ hj, ?_, ?_⟩
            · rw [rootFuel, if_neg hr, he, iter_succ]
            · rw [rootFuel, if_neg hr]
              exact hjr

/-- Any two fixed points reached from the same start coincide. -/
theorem DisjointSet.iter_fixed_unique (ds : DisjointSet) {x j k : ℕ}
    (hj : ds.isRoot (ds.iter j x)) (hk : ds.isRoot (ds.iter k x)) :
    ds.iter j x = ds.iter k x := by
  have h1 := ds.iter_stable hj k
  have h2 := ds.iter_stable hk j
  rw [Nat.add_comm k j] at h2
  rw [← h1, h2]

/-- `root x` equals any fixed point of the chain from `x`, as long as
some chain prefix within fuel `parent.len()` reaches a fixed point. -/
theorem DisjointSet.root_value (ds : DisjointSet) {x : ℕ}
    (hchain : ∃ k ≤ ds.parent.length, ds.isRoot (ds.iter k x)) {j : ℕ}
    (hj : ds.isRoot (ds.iter j x)) : ds.root x = ds.iter j x := by
  obtain ⟨i, _, he, hir⟩ := ds.rootFuel_reaches ds.parent.length x hchain
  rw [root, he]
  rw [he] at hir
  exact ds.iter_fixed_unique hir hj

theorem DisjointSet.parentOf_lt (ds : DisjointSet)
    (hin : ∀ y ∈ ds.parent, y < ds.parent.length) {z : ℕ}
    (hz : z < ds.parent.length) : ds.parentOf z < ds.parent.length := by
  rw [parentOf, List.getD_eq_getElem ds.parent z hz]
  exact hin _ (List.getElem_mem hz)

theorem DisjointSet.iter_lt (ds : DisjointSet)
    (hin : ∀ y ∈ ds.parent, y < ds.parent.length) {x : ℕ}
    (hx : x < ds.parent.length) (k : ℕ) : ds.iter k x < ds.parent.length := by
  induction k with
  | zero => exact hx
  | succ k ih =>
      rw [iter_succ']
      exact ds.parentOf_lt hin ih

/-- Pigeonhole: the minimal chain from an in-range node reaches a fixed
point in fewer than `parent.len()` steps, because a minimal chain never
repeats a node. -/
theorem DisjointSet.exists_short_chain (ds : DisjointSet) (hwf : ds.Wf) {x : ℕ}
    (hx : x < ds.parent.length) : ∃ k < ds.parent.length, ds.isRoot (ds.iter k x) := by
  have hex : ∃ k, ds.isRoot (ds.iter k x) := hwf.2 x hx
  set k0 := Nat.find hex with hk0
  have hk0r : ds.isRoot (ds.iter k0 x) := Nat.find_spec hex
  have hmin : ∀ j < k0, ¬ ds.isRoot (ds.iter j x) := fun j hj => Nat.find_min hex hj
  refine ⟨k0, ?_, hk0r⟩
  by_contra hbig
  push_neg at hbig
  have hdist : ∀ a b, a < b → b ≤ k0 → ds.iter a x ≠ ds.iter b x := by
    intro a b hab hb heq
    have hper : ∀ t, ds.iter (a + t) x = ds.iter (b + t) x := by
      intro t
      induction t with
      | zero => simpa using heq
      | succ t ih =>
          rw [show a + (t + 1) = (a + t) + 1 by omega, show b + (t + 1) = (b + t) + 1 by omega,
            iter_succ', iter_succ', ih]
    have hroot2 : ds.isRoot (ds.iter (a + (k0 - b)) x) := by
      rw [hper (k0 - b), show b + (k0 - b) = k0 by omega]
      exact hk0r
    exact hmin (a + (k0 - b)) (by omega) hroot2
  have hinj : Set.InjOn (fun j => ds.iter j x) (Finset.range (k0 + 1)) := by
    intro a ha b hb hab
    simp only [Finset.coe_range, Set.mem_Iio] at ha hb
    rcases lt_trichotomy a b with h | h | h
    · exact absurd hab (hdist a b h (by omega))
    · exact h
    · exact absurd hab.symm (hdist b a h (by omega))
  have hmaps : ∀ a ∈ Finset.range (k0 + 1), (fun j => ds.iter j x) a ∈
      Finset.range ds.parent.length := by
    intro a _
    simp only [Finset.mem_range]
    exact ds.iter_lt hwf.1 hx a
  have hcard := Finset.card_le_card_of_injOn _ hmaps hinj
  simp only [Finset.card_range] at hcard
  omega

/-- On a well-formed state, `root` lands on a fixed point of the parent
chain. -/
theorem DisjointSet.root_spec (ds : DisjointSet) (hwf : ds.Wf) {x : ℕ}
    (hx : x < ds.parent.length) :
    ds.isRoot (ds.root x) ∧ ∃ k, ds.root x = ds.iter k x := by
  obtain ⟨k, hk, hkr⟩ := ds.exists_short_chain hwf hx
  have := ds.root_value ⟨k, Nat.le_of_lt hk, hkr⟩ hkr
  exact ⟨by rw [this]; exact hkr, k, this⟩

theorem DisjointSet.root_lt (ds : DisjointSet) (hwf : ds.Wf) {x : ℕ}
    (hx : x < ds.parent.length) : ds.root x < ds.parent.length := by
  obtain ⟨-, k, hk⟩ := ds.root_spec hwf hx
  rw [hk]
  exact ds.iter_lt hwf.1 hx k

/-- A root is its own `root`. -/
theorem DisjointSet.root_of_isRoot (ds : DisjointSet) {r : ℕ}
    (hr : ds.isRoot r) : ds.root r = r :=
  ds.root_value ⟨0, Nat.zero_le _, hr⟩ (j := 0) hr

theorem DisjointSet.length_unite (ds : DisjointSet) (x y : ℕ) :
    (ds.unite x y).parent.length = ds.parent.length :=
  List.length_set ds.parent _ _

theorem DisjointSet.length_new (n : ℕ) : (DisjointSet.new n).parent.length = n :=
  List.length_range n

theorem DisjointSet.parentOf_new (n x : ℕ) : (DisjointSet.new n).parentOf x = x := by
  rw [parentOf]
  show (List.range n).getD x x = x
  by_cases hx : x < n
  · rw [List.getD_eq_getElem _ _ (by rw [List.length_range]; exact hx)]
    exact List.getElem_range _ _
  · rw [List.getD_eq_default _ _ (by rw [List.length_range]; omega)]

theorem DisjointSet.new_wf (n : ℕ) : (DisjointSet.new n).Wf := by
  constructor
  · intro y hy
    rw [length_new]
    exact List.mem_range.mp hy
  · intro x _
    exact ⟨0, parentOf_new n x⟩

theorem DisjointSet.parentOf_unite (ds : DisjointSet) (hwf : ds.Wf) {x : ℕ} (y : ℕ)
    (hx : x < ds.parent.length) (z : ℕ) :
    (ds.unite x y).parentOf z = if z = ds.root x then ds.root y else ds.parentOf z := by
  have hrx : ds.root x < ds.parent.length := ds.root_lt hwf hx
  by_cases hz : z < ds.parent.length
  · have hz' : z < (ds.parent.set (ds.root x) (ds.root y)).length := by
      rw [List.length_set]
      exact hz
    show (ds.parent.set (ds.root x) (ds.root y)).getD z z = _
    rw [List.getD_eq_getElem _ _ hz', List.getElem_set]
    by_cases h : z = ds.root x
    · rw [if_pos h.symm, if_pos h]
    · rw [if_neg (fun hh => h hh.symm), if_neg h, parentOf,
        List.getD_eq_getElem _ _ hz]
  · have h1 : (ds.parent.set (ds.root x) (ds.root y)).getD z z = z := by
      rw [List.getD_eq_default]
      rw [List.length_set]
      omega
    have h2 : ds.parentOf z = z := by
      rw [parentOf, List.getD_eq_default]
      omega
    show (ds.parent.set (ds.root x) (ds.root y)).getD z z = _
    rw [h1, if_neg (fun hh : z = ds.root x => hz (hh ▸ hrx)), h2]

theorem DisjointSet.rootFuel_congr (ds1 ds2 : DisjointSet)
    (hp : ∀ z, ds1.parentOf z = ds2.parentOf z) (fuel : ℕ) :
    ∀ x, ds1.rootFuel fuel x = ds2.rootFuel fuel x := by
  induction fuel with
  | zero => intro x; rfl
  | succ fuel ih =>
      intro x
      rw [rootFuel, rootFuel, hp x]
      by_cases h : ds2.parentOf x = x
      · rw [if_pos h, if_pos h]
      · rw [if_neg h, if_neg h, ih]

/-- The heart of the `unite` analysis: after `unite x y`, the chain from
any in-range `z` still reaches a fixed point within `parent.len()`
steps, and that fixed point is `root y` when `z`'s old root was `x`'s,
and `z`'s old root otherwise. -/
theorem DisjointSet.unite_chain_aux (ds : DisjointSet) (hwf : ds.Wf) {x y z : ℕ}
    (hx : x < ds.parent.length) (hy : y < ds.parent.length) (hz : z < ds.parent.length) :
    ∃ k ≤ ds.parent.length, (ds.unite x y).isRoot ((ds.unite x y).iter k z)
      ∧ (ds.unite x y).iter k z
        = (if ds.root z = ds.root x then ds.root y else ds.root z) := by
  have hrx_root : ds.isRoot (ds.root x) := (ds.root_spec hwf hx).1
  have hry_root : ds.isRoot (ds.root y) := (ds.root_spec hwf hy).1
  have hpar := ds.parentOf_unite hwf y hx
  have hex : ∃ k, ds.isRoot (ds.iter k z) := hwf.2 z hz
  obtain ⟨ks, hks_lt, hks_root⟩ := ds.exists_short_chain hwf hz
  set k0 := Nat.find hex with hk0def
  have hk0r : ds.isRoot (ds.iter k0 z) := Nat.find_spec hex
  have hk0_le : k0 ≤ ks := Nat.find_min' hex hks_root
  have hk0_lt : k0 < ds.parent.length := lt_of_le_of_lt hk0_le hks_lt
  have hmin : ∀ j < k0, ¬ ds.isRoot (ds.iter j z) := fun j hj => Nat.find_min hex hj
  have hroot_z : ds.root z = ds.iter k0 z := ds.root_value ⟨k0, le_of_lt hk0_lt, hk0r⟩ hk0r
  by_cases hxy : ds.root x = ds.root y
  · have hsame : ∀ w, (ds.unite x y).parentOf w = ds.parentOf w := by
      intro w
      rw [hpar w]
      by_cases h : w = ds.root x
      · rw [if_pos h, h, ← hxy]
        exact hrx_root.symm
      · rw [if_neg h]
    have hiter_same : ∀ k w, (ds.unite x y).iter k w = ds.iter k w := by
      intro k
      induction k with
      | zero => intro w; rfl
      | succ k ih =>
          intro w
          rw [iter_succ', iter_succ', ih, hsame]
    refine ⟨k0, le_of_lt hk0_lt, ?_, ?_⟩
    · show (ds.unite x y).parentOf ((ds.unite x y).iter k0 z) = (ds.unite x y).iter k0 z
      rw [hiter_same k0 z, hsame]
      exact hk0r
    · rw [hiter_same k0 z, ← hroot_z]
      by_cases hc : ds.root z = ds.root x
      · rw [if_pos hc, hc, hxy]
      · rw [if_neg hc]
  · have hne_rx : ∀ j < k0, ds.iter j z ≠ ds.root x := by
      intro j hj heq
      exact hmin j hj (by rw [heq]; exact hrx_root)
    have hiter_pre : ∀ j, j ≤ k0 → (ds.unite x y).iter j z = ds.iter j z := by
      intro j
      induction j with
      | zero => intro _; rfl
      | succ j ih =>
          intro hj
          rw [iter_succ', iter_succ', ih (by omega), hpar]
          rw [if_neg (hne_rx j (by omega))]
    by_cases hc : ds.iter k0 z = ds.root x
    · have e1 : (ds.unite x y).parentOf (ds.root x) = ds.root y := by
        rw [hpar, if_pos rfl]
      have e2 : (ds.unite x y).parentOf (ds.root y) = ds.root y := by
        rw [hpar, if_neg (fun h => hxy h.symm)]
        exact hry_root
      refine ⟨k0 + 1, by omega, ?_, ?_⟩
      · show (ds.unite x y).parentOf ((ds.unite x y).iter (k0 + 1) z)
          = (ds.unite x y).iter (k0 + 1) z
        rw [iter_succ', hiter_pre k0 (le_refl k0), hc, e1, e2]
      · rw [iter_succ', hiter_pre k0 (le_refl k0), hc, e1]
        have hcc : ds.root z = ds.root x := by
          rw [hroot_z]
          exact hc
        rw [if_pos hcc]
    · refine ⟨k0, by omega, ?_, ?_⟩
      · show (ds.unite x y).parentOf ((ds.unite x y).iter k0 z) = (ds.unite x y).iter k0 z
        rw [hiter_pre k0 (le_refl k0), hpar, if_neg hc]
        exact hk0r
      · rw [hiter_pre k0 (le_refl k0), ← hroot_z]
        have hcc : ¬ (ds.root z = ds.root x) := by
          rw [hroot_z]
          exact hc
        rw [if_neg hcc]

/-- Characterization of `root` after a `unite`. -/
theorem DisjointSet.unite_root (ds : DisjointSet) (hwf : ds.Wf) {x y z : ℕ}
    (hx : x < ds.parent.length) (hy : y < ds.parent.length) (hz : z < ds.parent.length) :
    (ds.unite x y).root z = if ds.root z = ds.root x then ds.root y else ds.root z := by
  obtain ⟨k, hk_le, hk_root, hk_val⟩ := ds.unite_chain_aux hwf hx hy hz
  have hchain : ∃ j ≤ (ds.unite x y).parent.length,
      (ds.unite x y).isRoot ((ds.unite x y).iter j z) :=
    ⟨k, by rw [length_unite]; exact hk_le, hk_root⟩
  rw [(ds.unite x y).root_value hchain hk_root, hk_val]

theorem DisjointSet.unite_wf (ds : DisjointSet) (hwf : ds.Wf) {x y : ℕ}
    (hx : x < ds.parent.length) (hy : y < ds.parent.length) : (ds.unite x y).Wf := by
  constructor
  · intro w hw
    rw [length_unite]
    rcases List.mem_or_eq_of_mem_set hw with h | h
    · exact hwf.1 w h
    · rw [h]
      exact ds.root_lt hwf hy
  · intro z hz
    rw [length_unite] at hz
    obtain ⟨k, -, hk_root, -⟩ := ds.unite_chain_aux hwf hx hy hz
    exact ⟨k, hk_root⟩

theorem DisjointSet.Reachable.len {n : ℕ} {ds : DisjointSet}
    (h : DisjointSet.Reachable n ds) : ds.parent.length = n := by
  induction h with
  | base => exact length_new n
  | step _ _ _ ih => rw [length_unite]; exact ih

theorem DisjointSet.Reachable.wf {n : ℕ} {ds : DisjointSet}
    (h : DisjointSet.Reachable n ds) : ds.Wf := by
  induction h with
  | base => exact new_wf n
  | @step ds x y hr hx hy ih =>
      exact ds.unite_wf ih (by rw [hr.len]; exact hx) (by rw [hr.len]; exact hy)

theorem DisjointSet.length_compress (ds : DisjointSet) :
    ds.compress.parent.length = ds.parent.length := by
  show ((List.range ds.parent.length).map ds.root).length = _
  rw [List.length_map, List.length_range]

theorem DisjointSet.parentOf_compress (ds : DisjointSet) (z : ℕ) :
    ds.compress.parentOf z = if z < ds.parent.length then ds.root z else z := by
  by_cases hz : z < ds.parent.length
  · rw [if_pos hz, parentOf]
    show ((List.range ds.parent.length).map ds.root).getD z z = ds.root z
    rw [List.getD_eq_getElem _ _ (by rw [List.length_map, List.length_range]; exact hz),
      List.getElem_map]
    congr 1
    exact List.getElem_range _ _
  · rw [if_neg hz, parentOf, List.getD_eq_default _ _ (by rw [length_compress]; omega)]

/-- Path compression does not change roots. -/
theorem DisjointSet.compress_root (ds : DisjointSet) (hwf : ds.Wf) {z : ℕ}
    (hz : z < ds.parent.length) : ds.compress.root z = ds.root z := by
  have hroot_lt := ds.root_lt hwf hz
  have h1 : ds.compress.iter 1 z = ds.root z := by
    show ds.compress.parentOf z = ds.root z
    rw [parentOf_compress, if_pos hz]
  have hfix : ds.compress.isRoot (ds.root z) := by
    show ds.compress.parentOf (ds.root z) = ds.root z
    rw [parentOf_compress, if_pos hroot_lt]
    exact ds.root_of_isRoot (ds.root_spec hwf hz).1
  have hfix1 : ds.compress.isRoot (ds.compress.iter 1 z) := by
    rw [h1]
    exact hfix
  have hchain : ∃ k ≤ ds.compress.parent.length,
      ds.compress.isRoot (ds.compress.iter k z) :=
    ⟨1, by rw [length_compress]; omega, hfix1⟩
  rw [ds.compress.root_value hchain hfix1, h1]

/-- Claim C5: on every state reachable from `new n` by `unite` calls
with arguments below `n`, and every `x < n`: the parent vector keeps
length `n`; the chain of parent pointers from `x` stays in range; the
recursive `root(x)` terminates — the chain reaches, in fewer than `n`
steps, a fixed point `r` with `parent[r] = r`, which is the value `root`
returns — so `root`, `unite` and `is_same` only touch in-range indices
when their arguments are below `n`. -/
theorem c5_root_terminates_in_range {n : ℕ} {ds : DisjointSet}
    (hreach : DisjointSet.Reachable n ds) {x : ℕ} (hx : x < n) :
    ds.parent.length = n
    ∧ (∀ k, ds.iter k x < n)
    ∧ (∃ k, k < n ∧ ds.isRoot (ds.iter k x) ∧ ds.root x = ds.iter k x)
    ∧ ds.parentOf (ds.root x) = ds.root x
    ∧ ds.root x < n := by
  have hlen := hreach.len
  have hwf := hreach.wf
  have hx' : x < ds.parent.length := by rw [hlen]; exact hx
  refine ⟨hlen, ?_, ?_, ?_, ?_⟩
  · intro k
    have := ds.iter_lt hwf.1 hx' k
    rw [hlen] at this
    exact this
  · obtain ⟨k, hk_lt, hk_root⟩ := ds.exists_short_chain hwf hx'
    have hval := ds.root_value ⟨k, le_of_lt hk_lt, hk_root⟩ hk_root
    rw [hlen] at hk_lt
    exact ⟨k, hk_lt, hk_root, hval⟩
  · exact (ds.root_spec hwf hx').1
  · have := ds.root_lt hwf hx'
    rw [hlen] at this
    exact this

/-- The unite sequence of the spec §8 test on 5 elements. -/
def dsExample : DisjointSet :=
  ((((DisjointSet.new 5).unite 0 1).unite 3 4).unite 1 2).unite 0 3

theorem c5_root_terminates_in_range_witness :
    dsExample.parent.length = 5
    ∧ (∀ k, dsExample.iter k 0 < 5)
    ∧ (∃ k, k < 5 ∧ dsExample.isRoot (dsExample.iter k 0)
        ∧ dsExample.root 0 = dsExample.iter k 0)
    ∧ dsExample.parentOf (dsExample.root 0) = dsExample.root 0
    ∧ dsExample.root 0 < 5 :=
  c5_root_terminates_in_range
    (DisjointSet.Reachable.step
      (DisjointSet.Reachable.step
        (DisjointSet.Reachable.step
          (DisjointSet.Reachable.step DisjointSet.Reachable.base
            (by decide) (by decide))
          (by decide) (by decide))
        (by decide) (by decide))
      (by decide) (by decide))
    (by decide)

/-! ### The clusterer (`AtlasPacker::create_cluster`) -/

/-- The texture ids in iteration order (`textures.keys()`); the id → 
texture map is embedded as an association list. -/
def textureIds (items : List (String × CroppedTexture)) : List String := items.map Prod.fst

/-- The texture stored under the `i`-th id. -/
def textureAt (items : List (String × CroppedTexture)) (i : ℕ) : CroppedTexture :=
  (items.getD i ("", dummyTexture)).2

/-- The `i < j` index pairs examined by `create_cluster`'s double loop
(`for i in 0..n { for j in (i+1)..n }`), in loop order. -/
def overlapPairs (n : ℕ) : List (ℕ × ℕ) :=
  (List.range n).flatMap fun i =>
    ((List.range n).filter fun j => decide (i < j)).map fun j => (i, j)

/-- One iteration of the double loop: unite `i` and `j` exactly when the
two textures' boxes overlap. -/
def uniteStep (items : List (String × CroppedTexture)) (ds : DisjointSet) (p : ℕ × ℕ) :
    DisjointSet :=
  if (textureAt items p.1).overlaps (textureAt items p.2) = true then ds.unite p.1 p.2 else ds

/-- The union-find state `create_cluster` builds: every overlapping pair
united, then the pointers compressed. -/
def clusterDS (items : List (String × CroppedTexture)) : DisjointSet :=
  ((overlapPairs items.length).foldl (uniteStep items) (DisjointSet.new items.length)).compress

/-- The pairs actually united while folding `L`: members of `L` passing
the condition `c`. -/
def pairRel (c : ℕ → ℕ → Bool) (L : List (ℕ × ℕ)) (a b : ℕ) : Prop :=
  (a, b) ∈ L ∧ c a b = true

theorem DisjointSet.rootFuel_of_isRoot {ds : DisjointSet} {x : ℕ}
    (h : ds.parentOf x = x) (fuel : ℕ) : ds.rootFuel fuel x = x := by
  cases fuel with
  | zero => rfl
  | succ fuel => rw [rootFuel, if_pos h]

theorem DisjointSet.root_new (n a : ℕ) : (DisjointSet.new n).root a = a :=
  DisjointSet.rootFuel_of_isRoot (DisjointSet.parentOf_new n a) _

theorem eqvGen_pairRel_nil (c : ℕ → ℕ → Bool) (a b : ℕ) :
    Relation.EqvGen (pairRel c []) a b ↔ a = b := by
  constructor
  · intro h
    induction h with
    | rel x y hxy => exact absurd hxy.1 (List.not_mem_nil _)
    | refl x => rfl
    | symm x y _ ih => exact ih.symm
    | trans x y z _ _ ih1 ih2 => exact ih1.trans ih2
  · intro h
    subst h
    exact Relation.EqvGen.refl a

theorem foldl_unite_reachable (c : ℕ → ℕ → Bool) (n : ℕ) :
    ∀ (L : List (ℕ × ℕ)), (∀ p ∈ L, p.1 < n ∧ p.2 < n) → ∀ ds : DisjointSet,
      DisjointSet.Reachable n ds →
      DisjointSet.Reachable n
        (L.foldl (fun ds p => if c p.1 p.2 = true then ds.unite p.1 p.2 else ds) ds) := by
  intro L
  induction L with
  | nil => intro _ ds h; exact h
  | cons q L ih =>
      intro hL ds h
      rw [List.foldl_cons]
      refine ih (fun p hp => hL p (List.mem_cons_of_mem q hp)) _ ?_
      by_cases hc : c q.1 q.2 = true
      · rw [if_pos hc]
        exact h.step (hL q (List.mem_cons_self q L)).1 (hL q (List.mem_cons_self q L)).2
      · rw [if_neg hc]
        exact h

/-- Union-find correctness for the clusterer's fold: after uniting every
pair of `L` that passes the condition, two in-range indices have equal
roots exactly when they are related by the equivalence closure of the
united pairs. -/
theorem foldl_unite_root_iff (c : ℕ → ℕ → Bool) (n : ℕ) (L : List (ℕ × ℕ))
    (hL : ∀ p ∈ L, p.1 < n ∧ p.2 < n) :
    ∀ a b, a < n → b < n →
      (((L.foldl (fun ds p => if c p.1 p.2 = true then ds.unite p.1 p.2 else ds)
          (DisjointSet.new n)).root a
        = (L.foldl (fun ds p => if c p.1 p.2 = true then ds.unite p.1 p.2 else ds)
            (DisjointSet.new n)).root b)
        ↔ Relation.EqvGen (pairRel c L) a b) := by
  revert hL
  induction L using List.reverseRecOn with
  | nil =>
      intro _ a b _ _
      rw [List.foldl_nil, DisjointSet.root_new, DisjointSet.root_new]
      exact (eqvGen_pairRel_nil c a b).symm
  | append_singleton L p ih =>
      intro hL
      obtain ⟨x, y⟩ := p
      have hL' : ∀ q ∈ L, q.1 < n ∧ q.2 < n := fun q hq => hL q (List.mem_append_left _ hq)
      have hxy_mem : (x, y) ∈ L ++ [(x, y)] :=
        List.mem_append_right _ (List.mem_singleton.mpr rfl)
      have hx : x < n := (hL (x, y) hxy_mem).1
      have hy : y < n := (hL (x, y) hxy_mem).2
      intro a b ha hb
      simp only [List.foldl_append, List.foldl_cons, List.foldl_nil]
      set ds0 := L.foldl (fun ds p => if c p.1 p.2 = true then ds.unite p.1 p.2 else ds)
        (DisjointSet.new n) with hds0
      have hreach : DisjointSet.Reachable n ds0 :=
        foldl_unite_reachable c n L hL' _ DisjointSet.Reachable.base
      have hwf := hreach.wf
      have hlen := hreach.len
      have hx' : x < ds0.parent.length := by rw [hlen]; exact hx
      have hy' : y < ds0.parent.length := by rw [hlen]; exact hy
      have ha' : a < ds0.parent.length := by rw [hlen]; exact ha
      have hb' : b < ds0.parent.length := by rw [hlen]; exact hb
      by_cases hc : c x y = true
      · rw [if_pos hc]
        rw [ds0.unite_root hwf hx' hy' ha', ds0.unite_root hwf hx' hy' hb']
        have hback : ∀ u v, Relation.EqvGen (pairRel c (L ++ [(x, y)])) u v →
            (if ds0.root u = ds0.root x then ds0.root y else ds0.root u)
              = (if ds0.root v = ds0.root x then ds0.root y else ds0.root v) := by
          intro u v h
          induction h with
          | rel u v huv =>
              rcases List.mem_append.mp huv.1 with hm | hm
              · have hu : u < n := (hL' (u, v) hm).1
                have hv : v < n := (hL' (u, v) hm).2
                have heq : ds0.root u = ds0.root v :=
                  (ih hL' u v hu hv).mpr (Relation.EqvGen.rel u v ⟨hm, huv.2⟩)
                rw [heq]
              · have heq : (u, v) = (x, y) := List.mem_singleton.mp hm
                have hu : u = x := congrArg Prod.fst heq
                have hv : v = y := congrArg Prod.snd heq
                rw [hu, hv, if_pos rfl]
                by_cases hyx : ds0.root y = ds0.root x
                · rw [if_pos hyx, hyx]
                · rw [if_neg hyx]
          | refl u => rfl
          | symm u v _ ih2 => exact ih2.symm
          | trans u v w _ _ ih1 ih2 => exact ih1.trans ih2
        constructor
        · intro h
          by_cases h1 : ds0.root a = ds0.root x <;> by_cases h2 : ds0.root b = ds0.root x
          · exact Relation.EqvGen.mono
              (fun u v hv => ⟨List.mem_append_left _ hv.1, hv.2⟩)
              ((ih hL' a b ha hb).mp (h1.trans h2.symm))
          · rw [if_pos h1, if_neg h2] at h
            have e1 : Relation.EqvGen (pairRel c (L ++ [(x, y)])) a x :=
              Relation.EqvGen.mono (fun u v hv => ⟨List.mem_append_left _ hv.1, hv.2⟩)
                ((ih hL' a x ha hx).mp h1)
            have e2 : Relation.EqvGen (pairRel c (L ++ [(x, y)])) x y :=
              Relation.EqvGen.rel x y ⟨hxy_mem, hc⟩
            have e3 : Relation.EqvGen (pairRel c (L ++ [(x, y)])) y b :=
              Relation.EqvGen.mono (fun u v hv => ⟨List.mem_append_left _ hv.1, hv.2⟩)
                ((ih hL' y b hy hb).mp h)
            exact Relation.EqvGen.trans _ _ _ e1 (Relation.EqvGen.trans _ _ _ e2 e3)
          · rw [if_neg h1, if_pos h2] at h
            have e1 : Relation.EqvGen (pairRel c (L ++ [(x, y)])) a y :=
              Relation.EqvGen.mono (fun u v hv => ⟨List.mem_append_left _ hv.1, hv.2⟩)
                ((ih hL' a y ha hy).mp h)
            have e2 : Relation.EqvGen (pairRel c (L ++ [(x, y)])) y x :=
              Relation.EqvGen.symm _ _ (Relation.EqvGen.rel x y ⟨hxy_mem, hc⟩)
            have e3 : Relation.EqvGen (pairRel c (L ++ [(x, y)])) x b :=
              Relation.EqvGen.mono (fun u v hv => ⟨List.mem_append_left _ hv.1, hv.2⟩)
                ((ih hL' x b hx hb).mp h2.symm)
            exact Relation.EqvGen.trans _ _ _ e1 (Relation.EqvGen.trans _ _ _ e2 e3)
          · rw [if_neg h1, if_neg h2] at h
            exact Relation.EqvGen.mono
              (fun u v hv => ⟨List.mem_append_left _ hv.1, hv.2⟩)
              ((ih hL' a b ha hb).mp h)
        · exact hback a b
      · rw [if_neg hc]
        have hiff : ∀ u v, pairRel c (L ++ [(x, y)]) u v ↔ pairRel c L u v := by
          intro u v
          constructor
          · rintro ⟨hm, hcv⟩
            rcases List.mem_append.mp hm with h | h
            · exact ⟨h, hcv⟩
            · have heq : (u, v) = (x, y) := List.mem_singleton.mp h
              obtain ⟨rfl, rfl⟩ := Prod.mk.injEq .. ▸ heq
              exact absurd hcv hc
          · rintro ⟨hm, hcv⟩
            exact ⟨List.mem_append_left _ hm, hcv⟩
        constructor
        · intro h
          exact Relation.EqvGen.mono (fun u v hv => (hiff u v).mpr hv)
            ((ih hL' a b ha hb).mp h)
        · intro h
          exact (ih hL' a b ha hb).mpr
            (Relation.EqvGen.mono (fun u v hv => (hiff u v).mp hv) h)

theorem eqvGen_of_eqvGen_edges {r s : ℕ → ℕ → Prop}
    (h : ∀ u v, r u v → Relation.EqvGen s u v) :
    ∀ u v, Relation.EqvGen r u v → Relation.EqvGen s u v := by
  intro u v hr
  induction hr with
  | rel a b hab => exact h a b hab
  | refl a => exact Relation.EqvGen.refl a
  | symm a b _ ih => exact Relation.EqvGen.symm _ _ ih
  | trans a b d _ _ ih1 ih2 => exact Relation.EqvGen.trans _ _ _ ih1 ih2

theorem mem_overlapPairs (n a b : ℕ) : (a, b) ∈ overlapPairs n ↔ a < n ∧ b < n ∧ a < b := by
  unfold overlapPairs
  simp only [List.mem_flatMap, List.mem_map, List.mem_filter, List.mem_range,
    decide_eq_true_eq, Prod.mk.injEq]
  constructor
  · rintro ⟨i, hi, j, ⟨hj, hij⟩, rfl, rfl⟩
    exact ⟨hi, hj, hij⟩
  · rintro ⟨ha, hb, hab⟩
    exact ⟨a, ha, b, ⟨hb, hab⟩, rfl, rfl⟩

/-- Two indexed textures are related when both indices are in range and
their boxes overlap — the relation whose chains the claim speaks of. -/
def overlapRel (items : List (String × CroppedTexture)) (a b : ℕ) : Prop :=
  a < items.length ∧ b < items.length
    ∧ (textureAt items a).overlaps (textureAt items b) = true

/-- The clusterer's union-find equates two in-range indices exactly when
they are connected by a chain of pairwise-overlapping textures. -/
theorem clusterDS_root_iff (items : List (String × CroppedTexture)) {i j : ℕ}
    (hi : i < items.length) (hj : j < items.length) :
    ((clusterDS items).root i = (clusterDS items).root j)
      ↔ Relation.EqvGen (overlapRel items) i j := by
  have hL : ∀ p ∈ overlapPairs items.length, p.1 < items.length ∧ p.2 < items.length := by
    intro p hp
    have := (mem_overlapPairs items.length p.1 p.2).mp hp
    exact ⟨this.1, this.2.1⟩
  have hreach : DisjointSet.Reachable items.length
      ((overlapPairs items.length).foldl (uniteStep items)
        (DisjointSet.new items.length)) :=
    foldl_unite_reachable (fun a b => (textureAt items a).overlaps (textureAt items b))
      items.length (overlapPairs items.length) hL _ DisjointSet.Reachable.base
  have hwf := hreach.wf
  have hlen := hreach.len
  have hcomp_i : (clusterDS items).root i
      = ((overlapPairs items.length).foldl (uniteStep items)
          (DisjointSet.new items.length)).root i :=
    DisjointSet.compress_root _ hwf (by rw [hlen]; exact hi)
  have hcomp_j : (clusterDS items).root j
      = ((overlapPairs items.length).foldl (uniteStep items)
          (DisjointSet.new items.length)).root j :=
    DisjointSet.compress_root _ hwf (by rw [hlen]; exact hj)
  rw [hcomp_i, hcomp_j]
  have hmain := foldl_unite_root_iff
    (fun a b => (textureAt items a).overlaps (textureAt items b))
    items.length (overlapPairs items.length) hL i j hi hj
  refine hmain.trans ⟨eqvGen_of_eqvGen_edges ?_ i j, eqvGen_of_eqvGen_edges ?_ i j⟩
  · intro u v huv
    have hm := (mem_overlapPairs items.length u v).mp huv.1
    exact Relation.EqvGen.rel u v ⟨hm.1, hm.2.1, huv.2⟩
  · intro u v huv
    obtain ⟨hu, hv, hov⟩ := huv
    rcases lt_trichotomy u v with h | h | h
    · exact Relation.EqvGen.rel u v
        ⟨(mem_overlapPairs items.length u v).mpr ⟨hu, hv, h⟩, hov⟩
    · subst h
      exact Relation.EqvGen.refl u
    · refine Relation.EqvGen.symm _ _ (Relation.EqvGen.rel v u
        ⟨(mem_overlapPairs items.length v u).mpr ⟨hv, hu, h⟩, ?_⟩)
      show (textureAt items v).overlaps (textureAt items u) = true
      rw [overlaps_comm]
      exact hov

/-- `cluster_id_map.entry(root).or_insert_with(Vec::new).push(id)`:
append `v` to the group of key `k`, creating the group if absent. -/
def insertAppend (acc : List (ℕ × List String)) (k : ℕ) (v : String) :
    List (ℕ × List String) :=
  match acc with
  | [] => [(k, [v])]
  | (k2, g) :: rest =>
      if k2 = k then (k2, g ++ [v]) :: rest else (k2, g) :: insertAppend rest k v

/-- The grouping pass of `create_cluster`: walk the indices in order and
append each texture id to the group of its root.  (The source keys the
map by `root.to_string()`; `ℕ → String` conversion is injective, so the
groups are keyed here by the root itself.) -/
def clusterGroups (items : List (String × CroppedTexture)) : List (ℕ × List String) :=
  (List.range items.length).foldl
    (fun acc i => insertAppend acc ((clusterDS items).root i) ((textureIds items).getD i ""))
    []

theorem insertAppend_keys (acc : List (ℕ × List String)) (k : ℕ) (v : String) :
    (insertAppend acc k v).map Prod.fst
      = if k ∈ acc.map Prod.fst then acc.map Prod.fst else acc.map Prod.fst ++ [k] := by
  induction acc with
  | nil => simp [insertAppend]
  | cons p rest ih =>
      obtain ⟨k2, g⟩ := p
      rw [insertAppend]
      by_cases h2 : k2 = k
      · rw [if_pos h2]
        have : k ∈ ((k2, g) :: rest).map Prod.fst := by
          rw [List.map_cons, h2]
          exact List.mem_cons_self k _
        rw [if_pos this]
        simp
      · rw [if_neg h2, List.map_cons, List.map_cons, ih]
        by_cases hk : k ∈ rest.map Prod.fst
        · rw [if_pos hk, if_pos (List.mem_cons_of_mem k2 hk)]
        · rw [if_neg hk, if_neg ?_, List.cons_append]
          intro hmem
          rcases List.mem_cons.mp hmem with h | h
          · exact h2 h.symm
          · exact hk h

theorem insertAppend_mem_of_no_entry (acc : List (ℕ × List String)) (k0 : ℕ) (v : String)
    (h : ∀ g2, (k0, g2) ∉ acc) (k : ℕ) (g : List String) :
    ((k, g) ∈ insertAppend acc k0 v) ↔ ((k, g) ∈ acc ∨ (k = k0 ∧ g = [v])) := by
  induction acc with
  | nil =>
      simp only [insertAppend, List.mem_singleton, List.not_mem_nil, false_or,
        Prod.mk.injEq]
  | cons p rest ih =>
      obtain ⟨k2, g2⟩ := p
      have hk2 : k2 ≠ k0 := by
        intro hc
        exact h g2 (by rw [← hc]; exact List.mem_cons_self _ _)
      rw [insertAppend, if_neg hk2]
      have hrest : ∀ g2, (k0, g2) ∉ rest := fun g2 hg2 => h g2 (List.mem_cons_of_mem _ hg2)
      rw [List.mem_cons, List.mem_cons, ih hrest]
      tauto

theorem insertAppend_mem_of_entry (acc : List (ℕ × List String)) (k0 : ℕ) (g0 : List String)
    (v : String) (hacc : (k0, g0) ∈ acc) (hnd : (acc.map Prod.fst).Nodup) (k : ℕ)
    (g : List String) :
    ((k, g) ∈ insertAppend acc k0 v) ↔
      ((k ≠ k0 ∧ (k, g) ∈ acc) ∨ (k = k0 ∧ g = g0 ++ [v])) := by
  induction acc with
  | nil => exact absurd hacc (List.not_mem_nil _)
  | cons p rest ih =>
      obtain ⟨k2, g2⟩ := p
      rw [List.map_cons, List.nodup_cons] at hnd
      rcases List.mem_cons.mp hacc with hh | hh
      · have hpair : k0 = k2 ∧ g0 = g2 := Prod.mk.injEq .. ▸ hh
        have hk2 : k2 = k0 := hpair.1.symm
        have hg2 : g2 = g0 := hpair.2.symm
        rw [insertAppend, if_pos hk2, List.mem_cons, List.mem_cons]
        subst hk2
        subst hg2
        constructor
        · rintro (hh2 | hh2)
          · right
            have h1 : k = k2 := (Prod.mk.injEq .. ▸ hh2).1
            have h2 : g = g2 ++ [v] := (Prod.mk.injEq .. ▸ hh2).2
            exact ⟨h1, h2⟩
          · left
            refine ⟨?_, Or.inr hh2⟩
            intro hc
            subst hc
            exact hnd.1 (List.mem_map.mpr ⟨(k, g), hh2, rfl⟩)
        · rintro (⟨hne, hh2 | hh2⟩ | ⟨rfl, rfl⟩)
          · exact absurd ((Prod.mk.injEq .. ▸ hh2).1) hne
          · exact Or.inr hh2
          · exact Or.inl rfl
      · have hk2 : k2 ≠ k0 := by
          intro hc
          subst hc
          exact hnd.1 (List.mem_map.mpr ⟨(k2, g0), hh, rfl⟩)
        rw [insertAppend, if_neg hk2, List.mem_cons, List.mem_cons, ih hh hnd.2]
        constructor
        · rintro (hh2 | hh2 | hh2)
          · have h1 : k = k2 := (Prod.mk.injEq .. ▸ hh2).1
            exact Or.inl ⟨by rw [h1]; exact hk2, Or.inl hh2⟩
          · exact Or.inl ⟨hh2.1, Or.inr hh2.2⟩
          · exact Or.inr hh2
        · rintro (⟨hne, hh2 | hh2⟩ | hh2)
          · exact Or.inl hh2
          · exact Or.inr (Or.inl ⟨hne, hh2⟩)
          · exact Or.inr (Or.inr hh2)

/-- The grouping fold, abstracted over the root and id functions. -/
def groupFold (rootf : ℕ → ℕ) (idf : ℕ → String) (m : ℕ) : List (ℕ × List String) :=
  (List.range m).foldl (fun acc i => insertAppend acc (rootf i) (idf i)) []

theorem clusterGroups_eq_groupFold (items : List (String × CroppedTexture)) :
    clusterGroups items
      = groupFold ((clusterDS items).root) (fun i => (textureIds items).getD i "")
          items.length := rfl

theorem groupFold_succ (rootf : ℕ → ℕ) (idf : ℕ → String) (m : ℕ) :
    groupFold rootf idf (m + 1)
      = insertAppend (groupFold rootf idf m) (rootf m) (idf m) := by
  rw [groupFold, groupFold, List.range_succ, List.foldl_append, List.foldl_cons,
    List.foldl_nil]

/-- Full characterization of the grouping fold: its keys are distinct
and the group of key `k` is exactly the ordered list of ids of the
processed indices whose root is `k` (present only when non-empty). -/
theorem groupFold_spec (rootf : ℕ → ℕ) (idf : ℕ → String) (m : ℕ) :
    (((groupFold rootf idf m).map Prod.fst).Nodup)
    ∧ ∀ k g, ((k, g) ∈ groupFold rootf idf m
        ↔ (g = ((List.range m).filter fun i => decide (rootf i = k)).map idf ∧ g ≠ [])) := by
  induction m with
  | zero =>
      constructor
      · simp [groupFold]
      · intro k g
        simp [groupFold]
  | succ m ih =>
      obtain ⟨ihnd, ihmem⟩ := ih
      have hfilter : ∀ k, ((List.range (m + 1)).filter fun i => decide (rootf i = k))
          = ((List.range m).filter fun i => decide (rootf i = k))
            ++ (if rootf m = k then [m] else []) := by
        intro k
        by_cases h : rootf m = k
        · simp [List.range_succ, List.filter_append, h]
        · simp [List.range_succ, List.filter_append, h]
      constructor
      · rw [groupFold_succ, insertAppend_keys]
        by_cases hk : rootf m ∈ (groupFold rootf idf m).map Prod.fst
        · rw [if_pos hk]
          exact ihnd
        · rw [if_neg hk]
          rw [List.nodup_append]
          refine ⟨ihnd, List.nodup_singleton _, ?_⟩
          intro x hx hmem
          rw [List.mem_singleton.mp hmem] at hx
          exact hk hx
      · intro k g
        rw [groupFold_succ, hfilter, List.map_append]
        by_cases hcase : ∃ g0, (rootf m, g0) ∈ groupFold rootf idf m
        · obtain ⟨g0, hg0⟩ := hcase
          have hg0val := (ihmem _ _).mp hg0
          rw [insertAppend_mem_of_entry _ (rootf m) g0 (idf m) hg0 ihnd]
          by_cases hk : k = rootf m
          · subst hk
            rw [if_pos rfl]
            constructor
            · rintro (⟨hne, -⟩ | ⟨-, hg⟩)
              · exact absurd rfl hne
              · rw [hg, hg0val.1]
                simp
            · rintro ⟨hg, -⟩
              right
              refine ⟨rfl, ?_⟩
              rw [hg, hg0val.1]
              simp
          · rw [if_neg (fun hc => hk hc.symm)]
            simp only [List.map_nil, List.append_nil]
            constructor
            · rintro (⟨-, hmem⟩ | ⟨hc, -⟩)
              · exact (ihmem k g).mp hmem
              · exact absurd hc hk
            · intro hg
              exact Or.inl ⟨hk, (ihmem k g).mpr hg⟩
        · push_neg at hcase
          rw [insertAppend_mem_of_no_entry _ (rootf m) (idf m) hcase]
          have hFempty : ((List.range m).filter fun i => decide (rootf i = rootf m)).map idf
              = [] := by
            by_contra hne
            exact hcase _ ((ihmem (rootf m) _).mpr ⟨rfl, hne⟩)
          by_cases hk : k = rootf m
          · subst hk
            rw [if_pos rfl, hFempty]
            constructor
            · rintro (hmem | ⟨-, hg⟩)
              · obtain ⟨hg, hne⟩ := (ihmem _ _).mp hmem
                rw [hFempty] at hg
                exact absurd hg hne
              · rw [hg]
                simp
            · rintro ⟨hg, -⟩
              right
              refine ⟨rfl, ?_⟩
              simpa using hg
          · rw [if_neg (fun hc => hk hc.symm)]
            simp only [List.map_nil, List.append_nil]
            constructor
            · rintro (hmem | ⟨hc, -⟩)
              · exact (ihmem k g).mp hmem
              · exact absurd hc hk
            · intro hg
              exact Or.inl ((ihmem k g).mpr hg)

theorem eq_singleton_of_nodup (l : List ℕ) (i : ℕ) (hnd : l.Nodup) (hmem : i ∈ l)
    (hall : ∀ x ∈ l, x = i) : l = [i] := by
  cases l with
  | nil => exact absurd hmem (List.not_mem_nil _)
  | cons x rest =>
      have hx : x = i := hall x (List.mem_cons_self x rest)
      subst hx
      have hrest : rest = [] := by
        cases rest with
        | nil => rfl
        | cons y rest2 =>
            have hy : y = x := hall y (List.mem_cons_of_mem _ (List.mem_cons_self _ _))
            rw [List.nodup_cons] at hnd
            exact absurd (List.mem_cons.mpr (Or.inl hy.symm)) hnd.1
      rw [hrest]

/-- Injectivity of the id lookup on a duplicate-free id list. -/
theorem textureIds_getD_inj (items : List (String × CroppedTexture))
    (hnodup : (textureIds items).Nodup) {a b : ℕ} (ha : a < items.length)
    (hb : b < items.length)
    (he : (textureIds items).getD a "" = (textureIds items).getD b "") : a = b := by
  have hlen : (textureIds items).length = items.length := List.length_map _ _
  have ha' : a < (textureIds items).length := by rw [hlen]; exact ha
  have hb' : b < (textureIds items).length := by rw [hlen]; exact hb
  rw [List.getD_eq_getElem _ _ ha', List.getD_eq_getElem _ _ hb'] at he
  exact (List.Nodup.getElem_inj_iff hnodup).mp he

/-- Two in-range indices land in the same group of `cluster_id_map`
exactly when the union-find gave them equal roots. -/
theorem clusterGroups_same_iff (items : List (String × CroppedTexture))
    (hnodup : (textureIds items).Nodup) {a b : ℕ} (ha : a < items.length)
    (hb : b < items.length) :
    (∃ g ∈ clusterGroups items,
        (textureIds items).getD a "" ∈ g.2 ∧ (textureIds items).getD b "" ∈ g.2)
      ↔ (clusterDS items).root a = (clusterDS items).root b := by
  have hspec := groupFold_spec ((clusterDS items).root)
    (fun i => (textureIds items).getD i "") items.length
  constructor
  · rintro ⟨⟨k, g⟩, hg, hag, hbg⟩
    rw [clusterGroups_eq_groupFold] at hg
    obtain ⟨hgval, -⟩ := (hspec.2 k g).mp hg
    subst hgval
    obtain ⟨ia, hia_mem, hia_eq⟩ := List.mem_map.mp hag
    obtain ⟨ib, hib_mem, hib_eq⟩ := List.mem_map.mp hbg
    rw [List.mem_filter, List.mem_range] at hia_mem hib_mem
    have hiaa : ia = a := textureIds_getD_inj items hnodup hia_mem.1 ha hia_eq
    have hibb : ib = b := textureIds_getD_inj items hnodup hib_mem.1 hb hib_eq
    have hka : (clusterDS items).root a = k := by
      rw [← hiaa]
      exact of_decide_eq_true hia_mem.2
    have hkb : (clusterDS items).root b = k := by
      rw [← hibb]
      exact of_decide_eq_true hib_mem.2
    rw [hka, hkb]
  · intro hab
    refine ⟨((clusterDS items).root a,
      ((List.range items.length).filter
        fun i => decide ((clusterDS items).root i = (clusterDS items).root a)).map
          fun i => (textureIds items).getD i ""), ?_, ?_, ?_⟩
    · rw [clusterGroups_eq_groupFold]
      refine (hspec.2 _ _).mpr ⟨rfl, List.ne_nil_of_mem (List.mem_map.mpr ⟨a, ?_, rfl⟩)⟩
      rw [List.mem_filter, List.mem_range]
      exact ⟨ha, decide_eq_true rfl⟩
    · refine List.mem_map.mpr ⟨a, ?_, rfl⟩
      rw [List.mem_filter, List.mem_range]
      exact ⟨ha, decide_eq_true rfl⟩
    · refine List.mem_map.mpr ⟨b, ?_, rfl⟩
      rw [List.mem_filter, List.mem_range]
      exact ⟨hb, decide_eq_true hab.symm⟩

/-- Claim C1: `create_cluster` puts two texture ids in the same cluster
exactly when their textures are connected by a chain of
pairwise-overlapping textures (the equivalence closure of `overlaps`),
and a texture that overlaps no other texture forms its own singleton
cluster. -/
theorem c1_create_cluster_clusters_connected_components
    (items : List (String × CroppedTexture)) (hnodup : (textureIds items).Nodup)
    {i j : ℕ} (hi : i < items.length) (hj : j < items.length) :
    ((∃ g ∈ clusterGroups items,
        (textureIds items).getD i "" ∈ g.2 ∧ (textureIds items).getD j "" ∈ g.2)
      ↔ Relation.EqvGen (overlapRel items) i j)
    ∧ ((∀ k, k < items.length → k ≠ i →
          (textureAt items i).overlaps (textureAt items k) = false) →
        ∀ g ∈ clusterGroups items, (textureIds items).getD i "" ∈ g.2 →
          g.2 = [(textureIds items).getD i ""]) := by
  constructor
  · exact (clusterGroups_same_iff items hnodup hi hj).trans
      (clusterDS_root_iff items hi hj)
  · intro hiso
    rintro ⟨k, g⟩ hg hmem
    have hspec := groupFold_spec ((clusterDS items).root)
      (fun i2 => (textureIds items).getD i2 "") items.length
    rw [clusterGroups_eq_groupFold] at hg
    obtain ⟨hgval, -⟩ := (hspec.2 k g).mp hg
    subst hgval
    obtain ⟨ia, hia_mem, hia_eq⟩ := List.mem_map.mp hmem
    rw [List.mem_filter, List.mem_range] at hia_mem
    have hiai : ia = i := textureIds_getD_inj items hnodup hia_mem.1 hi hia_eq
    have hk : (clusterDS items).root i = k := by
      rw [← hiai]
      exact of_decide_eq_true hia_mem.2
    have hfix : ∀ u v, Relation.EqvGen (overlapRel items) u v →
        (u = i → v = i) ∧ (v = i → u = i) := by
      intro u v h
      induction h with
      | rel u v huv =>
          obtain ⟨hu, hv, hov⟩ := huv
          constructor
          · intro hui
            subst hui
            by_contra hne
            rw [hiso v hv hne] at hov
            exact Bool.false_ne_true hov
          · intro hvi
            subst hvi
            by_contra hne
            rw [overlaps_comm, hiso u hu hne] at hov
            exact Bool.false_ne_true hov
      | refl u => exact ⟨id, id⟩
      | symm u v _ ih => exact ⟨ih.2, ih.1⟩
      | trans u v w _ _ ih1 ih2 =>
          exact ⟨fun h => ih2.1 (ih1.1 h), fun h => ih1.2 (ih2.2 h)⟩
    have hRonly : ∀ b, b < items.length →
        (clusterDS items).root b = (clusterDS items).root i → b = i := by
      intro b hb hRb
      exact (hfix b i ((clusterDS_root_iff items hb hi).mp hRb)).2 rfl
    have hfilter_eq : (List.range items.length).filter
        (fun i2 => decide ((clusterDS items).root i2 = k)) = [i] := by
      apply eq_singleton_of_nodup
      · exact (List.nodup_range items.length).filter _
      · rw [List.mem_filter, List.mem_range]
        exact ⟨hi, decide_eq_true hk⟩
      · intro x hx
        rw [List.mem_filter, List.mem_range] at hx
        exact hRonly x hx.1 (by rw [of_decide_eq_true hx.2, hk])
    show (((List.range items.length).filter
        fun i2 => decide ((clusterDS items).root i2 = k)).map
          fun i2 => (textureIds items).getD i2 "") = _
    rw [hfilter_eq, List.map_cons, List.map_nil]

/-- Three textures on one image: boxes `[0,10]`, `[8,18]`, `[16,26]` —
the first overlaps the second, the second the third, but the first and
third are disjoint. -/
def itemsW : List (String × CroppedTexture) :=
  [("a", ⟨"img.png", (0, 0), 10, 10, ⟨1⟩, []⟩),
   ("b", ⟨"img.png", (8, 0), 10, 10, ⟨1⟩, []⟩),
   ("c", ⟨"img.png", (16, 0), 10, 10, ⟨1⟩, []⟩)]

theorem c1_create_cluster_clusters_connected_components_witness :
    ∃ g ∈ clusterGroups itemsW,
      (textureIds itemsW).getD 0 "" ∈ g.2 ∧ (textureIds itemsW).getD 2 "" ∈ g.2 :=
  (c1_create_cluster_clusters_connected_components itemsW (by decide)
      (by decide) (by decide)).1.mpr
    (Relation.EqvGen.trans _ _ _
      (Relation.EqvGen.rel 0 1 ⟨by decide, by decide, by decide⟩)
      (Relation.EqvGen.rel 1 2 ⟨by decide, by decide, by decide⟩))

/-! ### The packer (`AtlasPacker::pack`) -/

/-- Modelled from the spec: `ToplevelTexture` (defined in a texture
module not present under `src/`; spec §4.3–4.4) — the bounding fragment
of a cluster: source path plus the union box grown by `expand`. -/
structure ToplevelTexture where
  image_path : String
  origin : ℕ × ℕ
  width : ℕ
  height : ℕ

/-- Modelled from the spec §4.4: the toplevel of a fresh cluster is the
member's own box. -/
def ToplevelTexture.ofTexture (t : CroppedTexture) : ToplevelTexture :=
  ⟨t.image_path, t.origin, t.width, t.height⟩

/-- Modelled from the spec §4.3: `expand` unions the boxes, requiring
the same source image. -/
def ToplevelTexture.expand (tl : ToplevelTexture) (t : CroppedTexture) :
    Option ToplevelTexture :=
  if tl.image_path = t.image_path then
    some ⟨tl.image_path,
      (min tl.origin.1 t.origin.1, min tl.origin.2 t.origin.2),
      max (tl.origin.1 + tl.width) (t.origin.1 + t.width) - min tl.origin.1 t.origin.1,
      max (tl.origin.2 + tl.height) (t.origin.2 + t.height) - min tl.origin.2 t.origin.2⟩
  else none

/-- Modelled from the spec §4.3: a cluster member's offset within the
toplevel region (`getChild`); the claims never inspect the payload. -/
structure ChildTexture where
  offset : ℕ × ℕ

/-- Modelled from the spec §4.3: `get_child` returns the member's pixel
offset relative to the toplevel's origin. -/
def ToplevelTexture.get_child (tl : ToplevelTexture) (t : CroppedTexture) : ChildTexture :=
  ⟨(t.origin.1 - tl.origin.1, t.origin.2 - tl.origin.2)⟩

/-- A cluster of `pack.rs`: the grown toplevel region plus the member
ids with their child offsets. -/
structure Cluster where
  toplevel_texture : ToplevelTexture
  children : List (String × ChildTexture)

/-- `textures.get(texture_id).unwrap()` on the embedded association
list. -/
def lookupTexture (items : List (String × CroppedTexture)) (id : String) : CroppedTexture :=
  (List.lookup id items).getD dummyTexture

/-- `AtlasPacker::create_cluster`: group ids by union-find root, fold
each group through `expand` into a toplevel (the source `.unwrap()`s the
fold result, embedded by `getD`), and attach each member's `get_child`
offset. -/
def create_cluster (items : List (String × CroppedTexture)) : List (String × Cluster) :=
  (clusterGroups items).map fun kg =>
    let toplevel :=
      (kg.2.foldl
        (fun acc texture_id =>
          match acc with
          | some tl => tl.expand (lookupTexture items texture_id)
          | none => some (ToplevelTexture.ofTexture (lookupTexture items texture_id)))
        none).getD (ToplevelTexture.ofTexture dummyTexture)
    (toString kg.1,
      { toplevel_texture := toplevel,
        children := kg.2.map fun texture_id =>
          (texture_id, toplevel.get_child (lookupTexture items texture_id)) })

/-- Modelled from the spec §4.5: the `TexturePlacer` trait
(`src/place.rs` is not under `src/`).  The placer is an opaque strategy
with internal state `σ`: a pure `can_place` query, a `place_texture`
commit returning the toplevel's placement and one optional placement
per child, and a `reset_param` that clears the per-page state. -/
structure TexturePlacer (σ ι : Type) where
  can_place : σ → ToplevelTexture → Bool
  place_texture : σ → ToplevelTexture → List (String × ChildTexture) → String → String →
    σ × ι × List (Option ι)
  reset_param : σ → σ

/-- The loop body of `AtlasPacker::pack` for one cluster: flush the page
when the cluster does not fit, place the cluster on the (possibly
fresh) page, and record every returned child placement keyed by texture
id (`HashMap::insert` is embedded as a cons; lookups read the newest
binding first). -/
def packStep {σ ι : Type} (placer : TexturePlacer σ ι)
    (st : σ × List ι × List (String × List ι) × List (String × ι))
    (entry : String × Cluster) : σ × List ι × List (String × List ι) × List (String × ι) :=
  let s := st.1
  let current_atlas := st.2.1
  let atlases := st.2.2.1
  let texture_info_map := st.2.2.2
  let flushed :=
    if placer.can_place s entry.2.toplevel_texture = true then (s, current_atlas, atlases)
    else (placer.reset_param s, [],
      atlases ++ [(toString atlases.length, current_atlas)])
  let current_atlas_id := toString flushed.2.2.length
  let placed := placer.place_texture flushed.1 entry.2.toplevel_texture entry.2.children
    entry.1 current_atlas_id
  let new_map :=
    (placed.2.2.zip (entry.2.children.map Prod.fst)).foldl
      (fun m ci =>
        match ci.1 with
        | some info => (ci.2, info) :: m
        | none => m)
      texture_info_map
  (placed.1, flushed.2.1 ++ [placed.2.1], flushed.2.2, new_map)

/-- The finalized provider returned by `pack`. -/
structure PackedAtlasProvider (ι : Type) where
  atlases : List (String × List ι)
  clusters : List (String × Cluster)
  texture_info_map : List (String × ι)

/-- `AtlasPacker::pack`: run the loop over all clusters, then finalize
the last non-empty working page. -/
def AtlasPacker.pack {σ ι : Type} (items : List (String × CroppedTexture))
    (placer : TexturePlacer σ ι) (s0 : σ) : PackedAtlasProvider ι :=
  let clusters := create_cluster items
  let st := clusters.foldl (packStep placer) (s0, [], [], [])
  let final_atlases :=
    if st.2.1.isEmpty then st.2.2.1
    else st.2.2.1 ++ [(toString st.2.2.1.length, st.2.1)]
  { atlases := final_atlases, clusters := clusters, texture_info_map := st.2.2.2 }

/-- `PackedAtlasProvider::get_texture_info`. -/
def PackedAtlasProvider.get_texture_info {ι : Type} (p : PackedAtlasProvider ι)
    (id : String) : Option ι :=
  List.lookup id p.texture_info_map

/-- Recording the zipped child placements: the map gains exactly the
given ids, provided the placer returned as many placements as there are
children and none of them is `None`. -/
theorem lookup_insert_fold {ι : Type} (id : String) :
    ∀ (infos : List (Option ι)) (ids : List String) (m : List (String × ι)),
      infos.length = ids.length → (∀ o ∈ infos, o.isSome = true) →
      ((List.lookup id ((infos.zip ids).foldl
          (fun m ci =>
            match ci.1 with
            | some info => (ci.2, info) :: m
            | none => m) m)).isSome = true
        ↔ (List.lookup id m).isSome = true ∨ id ∈ ids) := by
  intro infos
  induction infos with
  | nil =>
      intro ids m hlen hall
      cases ids with
      | nil => simp
      | cons idh ids => exact absurd hlen (by simp)
  | cons o infos ih =>
      intro ids m hlen hall
      cases ids with
      | nil => exact absurd hlen (by simp)
      | cons idh ids =>
          obtain ⟨v, rfl⟩ := Option.isSome_iff_exists.mp (hall o (List.mem_cons_self o infos))
          rw [List.zip_cons_cons, List.foldl_cons]
          refine Iff.trans (ih ids ((idh, v) :: m) (by simpa using hlen)
            (fun o ho => hall o (List.mem_cons_of_mem _ ho))) ?_
          by_cases hid : id = idh
          · subst hid
            simp
          · rw [show List.lookup id ((idh, v) :: m) = List.lookup id m by
              simp [List.lookup, beq_eq_false_iff_ne.mpr hid]]
            simp only [List.mem_cons]
            tauto

/-- One pass of the packing loop adds to the record map exactly the ids
of the processed cluster's children (under the placement-strategy
contract: one placement per child, none missing). -/
theorem packStep_lookup {σ ι : Type} (placer : TexturePlacer σ ι)
    (hcontract : ∀ s tl ch cid aid,
      ((placer.place_texture s tl ch cid aid).2.2).length = ch.length
      ∧ ∀ o ∈ (placer.place_texture s tl ch cid aid).2.2, o.isSome = true)
    (st : σ × List ι × List (String × List ι) × List (String × ι))
    (entry : String × Cluster) (id : String) :
    ((List.lookup id (packStep placer st entry).2.2.2).isSome = true
      ↔ (List.lookup id st.2.2.2).isSome = true
        ∨ id ∈ entry.2.children.map Prod.fst) := by
  obtain ⟨s, ca, ats, m⟩ := st
  have hkey : (packStep placer (s, ca, ats, m) entry).2.2.2
      = (((placer.place_texture
            (if placer.can_place s entry.2.toplevel_texture = true then (s, ca, ats)
              else (placer.reset_param s, [],
                ats ++ [(toString ats.length, ca)])).1
            entry.2.toplevel_texture entry.2.children entry.1
            (toString (if placer.can_place s entry.2.toplevel_texture = true
                then (s, ca, ats)
                else (placer.reset_param s, [],
                  ats ++ [(toString ats.length, ca)])).2.2.length)).2.2).zip
          (entry.2.children.map Prod.fst)).foldl
        (fun m ci =>
          match ci.1 with
          | some info => (ci.2, info) :: m
          | none => m) m := rfl
  rw [hkey]
  have hc := hcontract
    (if placer.can_place s entry.2.toplevel_texture = true then (s, ca, ats)
      else (placer.reset_param s, [], ats ++ [(toString ats.length, ca)])).1
    entry.2.toplevel_texture entry.2.children entry.1
    (toString (if placer.can_place s entry.2.toplevel_texture = true
        then (s, ca, ats)
        else (placer.reset_param s, [],
          ats ++ [(toString ats.length, ca)])).2.2.length)
  exact lookup_insert_fold id _ _ _ (by rw [List.length_map]; exact hc.1) hc.2

/-- Running the whole packing loop: the record map holds exactly the
initial keys plus every child id of every processed cluster. -/
theorem pack_fold_lookup {σ ι : Type} (placer : TexturePlacer σ ι)
    (hcontract : ∀ s tl ch cid aid,
      ((placer.place_texture s tl ch cid aid).2.2).length = ch.length
      ∧ ∀ o ∈ (placer.place_texture s tl ch cid aid).2.2, o.isSome = true)
    (id : String) :
    ∀ (clusters : List (String × Cluster))
      (st : σ × List ι × List (String × List ι) × List (String × ι)),
      ((List.lookup id (clusters.foldl (packStep placer) st).2.2.2).isSome = true
        ↔ (List.lookup id st.2.2.2).isSome = true
          ∨ ∃ e ∈ clusters, id ∈ e.2.children.map Prod.fst) := by
  intro clusters
  induction clusters with
  | nil =>
      intro st
      simp
  | cons e cs ih =>
      intro st
      rw [List.foldl_cons, ih (packStep placer st e), packStep_lookup placer hcontract]
      simp only [List.mem_cons]
      constructor
      · rintro ((h | h) | ⟨e2, he2, h⟩)
        · exact Or.inl h
        · exact Or.inr ⟨e, Or.inl rfl, h⟩
        · exact Or.inr ⟨e2, Or.inr he2, h⟩
      · rintro (h | ⟨e2, he2 | he2, h⟩)
        · exact Or.inl (Or.inl h)
        · rw [he2] at h
          exact Or.inl (Or.inr h)
        · exact Or.inr ⟨e2, he2, h⟩

/-- Every group of `clusterGroups` holds only genuine texture ids, and
every texture id lands in some group. -/
theorem clusterGroups_cover (items : List (String × CroppedTexture)) (id : String) :
    (∃ kg ∈ clusterGroups items, id ∈ kg.2) ↔ id ∈ textureIds items := by
  have hspec := groupFold_spec ((clusterDS items).root)
    (fun i => (textureIds items).getD i "") items.length
  have hlen : (textureIds items).length = items.length := List.length_map _ _
  constructor
  · rintro ⟨⟨k, g⟩, hg, hmem⟩
    rw [clusterGroups_eq_groupFold] at hg
    obtain ⟨hgval, -⟩ := (hspec.2 k g).mp hg
    subst hgval
    obtain ⟨ia, hia_mem, hia_eq⟩ := List.mem_map.mp hmem
    rw [List.mem_filter, List.mem_range] at hia_mem
    have hia' : ia < (textureIds items).length := by rw [hlen]; exact hia_mem.1
    rw [← hia_eq, List.getD_eq_getElem _ _ hia']
    exact List.getElem_mem hia'
  · intro hmem
    obtain ⟨i, hi, hival⟩ := List.mem_iff_getElem.mp hmem
    have hi' : i < items.length := by rw [← hlen]; exact hi
    refine ⟨((clusterDS items).root i,
      ((List.range items.length).filter
        fun i2 => decide ((clusterDS items).root i2 = (clusterDS items).root i)).map
          fun i2 => (textureIds items).getD i2 ""), ?_, ?_⟩
    · rw [clusterGroups_eq_groupFold]
      refine (hspec.2 _ _).mpr ⟨rfl, List.ne_nil_of_mem (List.mem_map.mpr ⟨i, ?_, rfl⟩)⟩
      rw [List.mem_filter, List.mem_range]
      exact ⟨hi', decide_eq_true rfl⟩
    · refine List.mem_map.mpr ⟨i, ?_, ?_⟩
      · rw [List.mem_filter, List.mem_range]
        exact ⟨hi', decide_eq_true rfl⟩
      · rw [List.getD_eq_getElem _ _ hi, hival]

/-- The child id lists of `create_cluster`'s clusters are exactly the
grouping's id lists. -/
theorem create_cluster_children_cover (items : List (String × CroppedTexture))
    (id : String) :
    (∃ e ∈ create_cluster items, id ∈ e.2.children.map Prod.fst)
      ↔ id ∈ textureIds items := by
  rw [← clusterGroups_cover items id]
  unfold create_cluster
  constructor
  · rintro ⟨e, he, hmem⟩
    obtain ⟨kg, hkg, rfl⟩ := List.mem_map.mp he
    refine ⟨kg, hkg, ?_⟩
    have : (kg.2.map fun texture_id =>
        (texture_id, ((kg.2.foldl
          (fun acc texture_id =>
            match acc with
            | some tl => tl.expand (lookupTexture items texture_id)
            | none => some (ToplevelTexture.ofTexture (lookupTexture items texture_id)))
          none).getD (ToplevelTexture.ofTexture dummyTexture)).get_child
            (lookupTexture items texture_id))).map Prod.fst = kg.2 := by
      rw [List.map_map]
      exact List.map_id kg.2
    rw [this] at hmem
    exact hmem
  · rintro ⟨kg, hkg, hmem⟩
    refine ⟨_, List.mem_map.mpr ⟨kg, hkg, rfl⟩, ?_⟩
    exact List.mem_map.mpr ⟨(id, _), List.mem_map.mpr ⟨id, hmem, rfl⟩, rfl⟩

/-- Claim C4: for every placement strategy satisfying the contract (one
returned placement per child, none missing), after `pack` consumes the
packer every added texture id has exactly one placement record —
`get_texture_info` is `Some` for each added id and `None` for ids never
added. -/
theorem c4_pack_every_added_texture_has_record {σ ι : Type}
    (placer : TexturePlacer σ ι)
    (hcontract : ∀ s tl ch cid aid,
      ((placer.place_texture s tl ch cid aid).2.2).length = ch.length
      ∧ ∀ o ∈ (placer.place_texture s tl ch cid aid).2.2, o.isSome = true)
    (items : List (String × CroppedTexture)) (s0 : σ) :
    (∀ id ∈ textureIds items,
        ((AtlasPacker.pack items placer s0).get_texture_info id).isSome = true)
    ∧ (∀ id, id ∉ textureIds items →
        (AtlasPacker.pack items placer s0).get_texture_info id = none) := by
  have hmain : ∀ id, (((AtlasPacker.pack items placer s0).get_texture_info id).isSome = true)
      ↔ id ∈ textureIds items := by
    intro id
    have h1 : (AtlasPacker.pack items placer s0).get_texture_info id
        = List.lookup id ((create_cluster items).foldl (packStep placer)
            (s0, [], [], [])).2.2.2 := rfl
    rw [h1, pack_fold_lookup placer hcontract id (create_cluster items) (s0, [], [], []),
      create_cluster_children_cover items id]
    simp
  constructor
  · intro id hid
    exact (hmain id).mpr hid
  · intro id hid
    exact Option.not_isSome_iff_eq_none.mp (fun hs => hid ((hmain id).mp hs))

/-- A placement strategy with unlimited capacity: it accepts every
region and returns a placement for every child. -/
def trivialPlacer : TexturePlacer Unit Unit where
  can_place := fun _ _ => true
  place_texture := fun s _ ch _ _ => (s, (), ch.map fun _ => some ())
  reset_param := fun s => s

theorem c4_pack_every_added_texture_has_record_witness :
    (∀ id ∈ textureIds itemsW,
        ((AtlasPacker.pack itemsW trivialPlacer ()).get_texture_info id).isSome = true)
    ∧ (∀ id, id ∉ textureIds itemsW →
        (AtlasPacker.pack itemsW trivialPlacer ()).get_texture_info id = none) :=
  c4_pack_every_added_texture_has_record trivialPlacer
    (fun s tl ch cid aid => ⟨by simp [trivialPlacer], by simp [trivialPlacer]⟩)
    itemsW ()
